import Mathlib

/-!
Verification of the transport-unifying streaming engine of the Codex
TypeScript SDK (file src/sdk/typescript/src/exec.ts).

The development shallowly embeds the relevant parts of the source:

* the incremental SSE decoder (function parseSse of exec.ts), modelled at
  character level (the TextDecoder in streaming mode makes byte-boundary
  splits equivalent to character-boundary splits for a fixed stream);
* the HTTP transport (method CodexExec.runHttp), modelled as a pure
  function of the turn arguments, the resolved fresh id, a signal model,
  the fetch outcome and the history store, returning the trace of
  observable steps, the outcome and the updated store;
* the process transport (method CodexExec.run, subprocess branch),
  modelled as a pure function of the subprocess world.

JavaScript strings are embedded as List Char; the JS string method
split(sep) for a non-empty separator is embedded by splitSeg below, the
method trim() by jsTrim, startsWith by leads.
-/

namespace CodexSpec

/-- Embedding of the JS test p.startsWith(s): leads p s is true when the
pattern p is a leading piece of s. -/
def leads : List Char → List Char → Bool
  | [], _ => true
  | _ :: _, [] => false
  | p :: ps, c :: cs => p == c && leads ps cs

/-- Fuel-indexed embedding of the JS string split on the non-empty
separator a :: r, scanning left to right and consuming non-overlapping
occurrences.  The fuel only serves to make the recursion structural; any
fuel at least the length of the input gives the same value
(splitSegF_congr). -/
def splitSegF (a : Char) (r : List Char) : Nat → List Char → List (List Char)
  | _, [] => [[]]
  | 0, c :: s => [c :: s]
  | n + 1, c :: s =>
    if leads (a :: r) (c :: s) then
      [] :: splitSegF a r n (s.drop r.length)
    else
      (splitSegF a r n s).modifyHead (fun seg => c :: seg)

/-- Embedding of the JS split of s on the separator a :: r. -/
def splitSeg (a : Char) (r : List Char) (s : List Char) : List (List Char) :=
  splitSegF a r s.length s

theorem leads_length {p s : List Char} (h : leads p s = true) : p.length ≤ s.length := by
  induction p generalizing s with
  | nil => simp
  | cons a ps ih =>
    cases s with
    | nil => simp [leads] at h
    | cons c cs =>
      simp only [leads, Bool.and_eq_true] at h
      have := ih h.2
      simp only [List.length_cons]
      omega

theorem leads_append {p s : List Char} (t : List Char) (h : leads p s = true) :
    leads p (s ++ t) = true := by
  induction p generalizing s with
  | nil => simp [leads]
  | cons a ps ih =>
    cases s with
    | nil => simp [leads] at h
    | cons c cs =>
      simp only [leads, Bool.and_eq_true] at h
      simp only [List.cons_append, leads, Bool.and_eq_true]
      exact ⟨h.1, ih h.2⟩

theorem length_lt_of_leads_append {p s t : List Char}
    (h : leads p (s ++ t) = true) (h' : leads p s = false) : s.length < p.length := by
  induction p generalizing s with
  | nil => simp [leads] at h'
  | cons a ps ih =>
    cases s with
    | nil => simp
    | cons c cs =>
      simp only [List.cons_append, leads, Bool.and_eq_true] at h
      simp only [leads, Bool.and_eq_false_iff] at h'
      rcases h' with h' | h'
      · rw [h.1] at h'; simp at h'
      · have := ih h.2 h'
        simp only [List.length_cons]
        omega

theorem leads_iff_take {p s : List Char} : leads p s = true ↔ s.take p.length = p := by
  induction p generalizing s with
  | nil => simp [leads]
  | cons a ps ih =>
    cases s with
    | nil => simp [leads]
    | cons c cs =>
      simp only [leads, Bool.and_eq_true, beq_iff_eq, List.length_cons, List.take_succ_cons,
        List.cons.injEq, ih]
      tauto

theorem leads_of_isPrefix {p s : List Char} (h : p <+: s) : leads p s = true := by
  rcases h with ⟨t, rfl⟩
  exact leads_append t (by
    induction p with
    | nil => simp [leads]
    | cons a ps ih => simp [leads, ih])

theorem isPrefix_of_leads {p s : List Char} (h : leads p s = true) : p <+: s := by
  rw [leads_iff_take] at h
  exact h ▸ List.take_prefix p.length s

theorem splitSegF_congr (a : Char) (r : List Char) :
    ∀ n m s, s.length ≤ n → s.length ≤ m → splitSegF a r n s = splitSegF a r m s := by
  intro n
  induction n with
  | zero =>
    intro m s hn _
    have : s = [] := by cases s with
      | nil => rfl
      | cons c cs => simp at hn
    subst this
    cases m <;> rfl
  | succ n ih =>
    intro m s hn hm
    cases s with
    | nil => cases m <;> rfl
    | cons c cs =>
      cases m with
      | zero =>
        simp only [List.length_cons] at hm
        omega
      | succ m =>
        simp only [splitSegF]
        by_cases hl : leads (a :: r) (c :: cs) = true
        · simp only [hl, if_true]
          have h1 : (cs.drop r.length).length ≤ n := by
            simp only [List.length_drop]
            simp only [List.length_cons] at hn
            omega
          have h2 : (cs.drop r.length).length ≤ m := by
            simp only [List.length_drop]
            simp only [List.length_cons] at hm
            omega
          rw [ih m (cs.drop r.length) h1 h2]
        · simp only [Bool.not_eq_true] at hl
          simp only [hl, Bool.false_eq_true, if_false]
          have h1 : cs.length ≤ n := by simp only [List.length_cons] at hn; omega
          have h2 : cs.length ≤ m := by simp only [List.length_cons] at hm; omega
          rw [ih m cs h1 h2]

theorem splitSeg_nil (a : Char) (r : List Char) : splitSeg a r [] = [[]] := rfl

theorem splitSeg_cons (a : Char) (r : List Char) (c : Char) (s : List Char) :
    splitSeg a r (c :: s) =
      if leads (a :: r) (c :: s) then
        [] :: splitSeg a r (s.drop r.length)
      else
        (splitSeg a r s).modifyHead (fun seg => c :: seg) := by
  show splitSegF a r (c :: s).length (c :: s) = _
  simp only [List.length_cons, splitSegF]
  by_cases hl : leads (a :: r) (c :: s) = true
  · simp only [hl, if_true]
    rw [splitSegF_congr a r s.length (s.drop r.length).length (s.drop r.length)
      (by simp [List.length_drop]) (le_refl _)]
    rfl
  · simp only [Bool.not_eq_true] at hl
    simp only [hl, if_false]
    rfl

theorem splitSeg_ne_nil (a : Char) (r : List Char) (s : List Char) : splitSeg a r s ≠ [] := by
  generalize hn : s.length = n
  induction n generalizing s with
  | zero =>
    have : s = [] := by cases s with
      | nil => rfl
      | cons c cs => simp at hn
    subst this
    simp [splitSeg_nil]
  | succ n ih =>
    cases s with
    | nil => simp [splitSeg_nil]
    | cons c cs =>
      rw [splitSeg_cons]
      by_cases hl : leads (a :: r) (c :: cs) = true
      · simp [hl]
      · simp only [Bool.not_eq_true] at hl
        simp only [hl, if_false, Bool.false_eq_true]
        simp only [ne_eq, List.modifyHead_eq_nil_iff]
        apply ih
        simp only [List.length_cons] at hn
        omega

theorem splitSeg_short (a : Char) (r : List Char) (s : List Char)
    (h : s.length < r.length + 1) : splitSeg a r s = [s] := by
  generalize hn : s.length = n
  induction n generalizing s with
  | zero =>
    have : s = [] := by cases s with
      | nil => rfl
      | cons c cs => simp at hn
    subst this
    simp [splitSeg_nil]
  | succ n ih =>
    cases s with
    | nil => simp [splitSeg_nil]
    | cons c cs =>
      rw [splitSeg_cons]
      have hl : leads (a :: r) (c :: cs) = false := by
        by_contra hcon
        simp only [Bool.not_eq_false] at hcon
        have := leads_length hcon
        simp only [List.length_cons] at this h
        omega
      simp only [hl, if_false, Bool.false_eq_true]
      simp only [List.length_cons] at hn h
      rw [ih cs (by omega) (by omega)]
      rfl

theorem splitSeg_eq_singleton {a : Char} {r : List Char} {s u : List Char}
    (h : splitSeg a r s = [u]) : u = s := by
  generalize hn : s.length = n
  induction n generalizing s u with
  | zero =>
    have : s = [] := by cases s with
      | nil => rfl
      | cons c cs => simp at hn
    subst this
    rw [splitSeg_nil] at h
    simpa using h.symm
  | succ n ih =>
    cases s with
    | nil =>
      rw [splitSeg_nil] at h
      simpa using h.symm
    | cons c cs =>
      rw [splitSeg_cons] at h
      by_cases hl : leads (a :: r) (c :: cs) = true
      · simp only [hl, if_true] at h
        cases hq : splitSeg a r (cs.drop r.length) with
        | nil => exact absurd hq (splitSeg_ne_nil a r _)
        | cons v vs => rw [hq] at h; simp at h
      · simp only [Bool.not_eq_true] at hl
        simp only [hl, if_false, Bool.false_eq_true] at h
        cases hq : splitSeg a r cs with
        | nil => exact absurd hq (splitSeg_ne_nil a r cs)
        | cons v vs =>
          rw [hq] at h
          simp only [List.modifyHead] at h
          simp only [List.cons.injEq] at h
          have hvs : vs = [] := h.2
          have : splitSeg a r cs = [v] := by rw [hq, hvs]
          have hv : v = cs := by
            apply ih this
            simp only [List.length_cons] at hn
            omega
          rw [← h.1, hv]

/-- Embedding of parts.pop() viewed as reading the final element: the last
segment of a split, the empty string when the list is empty. -/
def lastSeg : List (List Char) → List Char
  | [] => []
  | [x] => x
  | _ :: x :: xs => lastSeg (x :: xs)

theorem lastSeg_cons_ne {x : List Char} {xs : List (List Char)} (h : xs ≠ []) :
    lastSeg (x :: xs) = lastSeg xs := by
  cases xs with
  | nil => exact absurd rfl h
  | cons y ys => rfl

theorem dropLast_cons_ne {α : Type} {x : α} {l : List α} (h : l ≠ []) :
    (x :: l).dropLast = x :: l.dropLast := by
  cases l with
  | nil => exact absurd rfl h
  | cons y ys => rfl

theorem dropLast_append_ne {α : Type} {l₂ : List α} (l₁ : List α) (h : l₂ ≠ []) :
    (l₁ ++ l₂).dropLast = l₁ ++ l₂.dropLast := by
  induction l₁ with
  | nil => rfl
  | cons x xs ih =>
    have hne : xs ++ l₂ ≠ [] := by
      cases xs with
      | nil => simpa using h
      | cons y ys => simp
    rw [List.cons_append, dropLast_cons_ne hne, ih, List.cons_append]

theorem splitSeg_append_aux (a : Char) (r : List Char) :
    ∀ n s t, s.length ≤ n →
      splitSeg a r (s ++ t) =
        (splitSeg a r s).dropLast ++ splitSeg a r (lastSeg (splitSeg a r s) ++ t) := by
  intro n
  induction n with
  | zero =>
    intro s t hs
    have : s = [] := by
      cases s with
      | nil => rfl
      | cons c cs => simp at hs
    subst this
    simp [splitSeg_nil, lastSeg]
  | succ n ih =>
    intro s t hs
    cases s with
    | nil => simp [splitSeg_nil, lastSeg]
    | cons c s' =>
      have hs' : s'.length ≤ n := by
        simp only [List.length_cons] at hs
        omega
      by_cases hx : leads (a :: r) (c :: (s' ++ t)) = true
      · by_cases hc : leads (a :: r) (c :: s') = true
        · -- the separator matches at the head both of s and of s ++ t
          have hr : r.length ≤ s'.length := by
            have := leads_length hc
            simp only [List.length_cons] at this
            omega
          have hdrop : (s' ++ t).drop r.length = s'.drop r.length ++ t := by
            rw [List.drop_append_eq_append_drop, Nat.sub_eq_zero_of_le hr, List.drop_zero]
          have hlen : (s'.drop r.length).length ≤ n := by
            simp only [List.length_drop]
            omega
          rw [List.cons_append, splitSeg_cons, if_pos hx, hdrop,
            ih (s'.drop r.length) t hlen, splitSeg_cons, if_pos hc]
          have hne := splitSeg_ne_nil a r (s'.drop r.length)
          rw [dropLast_cons_ne hne, lastSeg_cons_ne hne, List.cons_append]
        · -- the separator straddles the boundary between s and t:
          -- in that case all of c :: s' is shorter than the separator
          have hshort : (c :: s').length < r.length + 1 := by
            have := length_lt_of_leads_append (s := c :: s') (t := t)
              (by rwa [List.cons_append]) (by simpa using hc)
            simpa using this
          rw [splitSeg_short a r (c :: s') hshort]
          simp [lastSeg]
      · have hc : leads (a :: r) (c :: s') = false := by
          by_contra hcon
          simp only [Bool.not_eq_false] at hcon
          have := leads_append (s := c :: s') t hcon
          rw [List.cons_append] at this
          exact absurd this (by simpa using hx)
        have hxf : leads (a :: r) (c :: (s' ++ t)) = false := by simpa using hx
        cases hq : splitSeg a r s' with
        | nil => exact absurd hq (splitSeg_ne_nil a r s')
        | cons u us =>
          cases us with
          | nil =>
            -- a single segment: s' contains no separator, so u = s'
            have hu : u = s' := splitSeg_eq_singleton hq
            subst hu
            rw [splitSeg_cons, if_neg (by simp [hc]), hq]
            simp only [List.modifyHead, List.dropLast_single, List.nil_append, lastSeg]
          | cons v vs =>
            rw [List.cons_append, splitSeg_cons, if_neg (by simp [hxf]),
              ih s' t hs', splitSeg_cons, if_neg (by simp [hc]), hq]
            have hne : v :: vs ≠ ([] : List (List Char)) := by simp
            rw [dropLast_cons_ne hne, lastSeg_cons_ne hne]
            simp only [List.cons_append, List.modifyHead]
            rw [dropLast_cons_ne hne, lastSeg_cons_ne hne, List.cons_append]

theorem splitSeg_append (a : Char) (r : List Char) (s t : List Char) :
    splitSeg a r (s ++ t) =
      (splitSeg a r s).dropLast ++ splitSeg a r (lastSeg (splitSeg a r s) ++ t) :=
  splitSeg_append_aux a r s.length s t (le_refl _)

theorem splitSeg_no_sep (a : Char) (r : List Char) (s : List Char)
    (h : ¬ (a :: r) <:+: s) : splitSeg a r s = [s] := by
  generalize hn : s.length = n
  induction n generalizing s with
  | zero =>
    have : s = [] := by
      cases s with
      | nil => rfl
      | cons c cs => simp at hn
    subst this
    simp [splitSeg_nil]
  | succ n ih =>
    cases s with
    | nil => simp [splitSeg_nil]
    | cons c cs =>
      have hl : leads (a :: r) (c :: cs) = false := by
        by_contra hcon
        simp only [Bool.not_eq_false] at hcon
        exact h (isPrefix_of_leads hcon).isInfix
      rw [splitSeg_cons, if_neg (by simp [hl])]
      have hcs : ¬ (a :: r) <:+: cs := fun hin => h (hin.trans (List.suffix_cons c cs).isInfix)
      rw [ih cs hcs (by simpa using hn)]
      rfl

/-! The SSE decoder, embedding the function parseSse of exec.ts.  The
decoder keeps a text buffer; on each chunk it appends the chunk, splits the
buffer on the blank-line delimiter, keeps the trailing (possibly partial)
segment as the new buffer, and for every complete segment extracts the
first line marked data:, drops the mark, trims it and, when the result is
non-empty, emits it (JSON.parse applied downstream is a deterministic
function of this emitted text, so events are modelled by that text). -/

def dataMark : List Char := ['d', 'a', 't', 'a', ':']

/-- Embedding of the JS string method trim(). -/
def jsTrim (s : List Char) : List Char :=
  ((s.dropWhile Char.isWhitespace).reverse.dropWhile Char.isWhitespace).reverse

/-- Extraction of the data line of one complete SSE segment: the first line
starting with data:, with the mark removed and the rest trimmed; segments
without such a line, or whose trimmed payload is empty, yield nothing. -/
def dataLineOf (part : List Char) : Option (List Char) :=
  match (splitSeg '\n' [] part).find? (fun line => leads dataMark line) with
  | none => none
  | some line =>
    match jsTrim (line.drop 5) with
    | [] => none
    | d => some d

/-- The events decoded from a complete text, namely the data lines of every
segment before the trailing remainder. -/
def sseEventsOf (s : List Char) : List (List Char) :=
  (splitSeg '\n' ['\n'] s).dropLast.filterMap dataLineOf

/-- The incremental decoding loop of parseSse: state is the retained text
buffer, input is the remaining list of chunks. -/
def parseSseGo : List Char → List (List Char) → List (List Char)
  | _, [] => []
  | buffer, chunk :: rest =>
    (splitSeg '\n' ['\n'] (buffer ++ chunk)).dropLast.filterMap dataLineOf ++
      parseSseGo (lastSeg (splitSeg '\n' ['\n'] (buffer ++ chunk))) rest

/-- Embedding of parseSse of exec.ts: decode a stream delivered as the
given list of chunks, starting from an empty buffer. -/
def parseSse (chunks : List (List Char)) : List (List Char) :=
  parseSseGo [] chunks

theorem sseEventsOf_append (x y : List Char) :
    sseEventsOf (x ++ y) =
      sseEventsOf x ++ sseEventsOf (lastSeg (splitSeg '\n' ['\n'] x) ++ y) := by
  unfold sseEventsOf
  rw [splitSeg_append, dropLast_append_ne _ (splitSeg_ne_nil '\n' ['\n'] _),
    List.filterMap_append]

theorem parseSseGo_eq (buffer chunk : List Char) (rest : List (List Char)) :
    parseSseGo buffer (chunk :: rest) = sseEventsOf (buffer ++ chunk ++ rest.flatten) := by
  induction rest generalizing buffer chunk with
  | nil =>
    simp only [parseSseGo, List.flatten_nil, List.append_nil]
    rfl
  | cons c2 cs ih =>
    rw [parseSseGo, ih, List.flatten_cons,
      sseEventsOf_append (buffer ++ chunk) (c2 ++ cs.flatten),
      List.append_assoc (lastSeg (splitSeg '\n' ['\n'] (buffer ++ chunk))) c2 cs.flatten]
    rfl

/-! Embedding of the engine of exec.ts: the class CodexExec with its run
and runHttp methods.  Effects are made explicit: the file system, the
subprocess and the network are parameters, and the generator's behaviour
is returned as a trace of observable steps together with an outcome
(normal end or raised error) and the updated history store. -/

/-- Embedding of the role of a ConversationMessage of exec.ts. -/
inductive Role : Type
  | user
  | assistant
deriving DecidableEq

/-- Embedding of ConversationMessage of exec.ts. -/
structure ConversationMessage : Type where
  role : Role
  text : String
deriving DecidableEq

/-- Embedding of the usage record built by parseUsage of exec.ts. -/
structure Usage : Type where
  input_tokens : Int
  cached_input_tokens : Int
  output_tokens : Int
deriving DecidableEq

/-- Embedding of the input_tokens_details object of an upstream usage
record; absent fields are none. -/
structure RawTokenDetails : Type where
  cached_tokens : Option Int
deriving DecidableEq

/-- Embedding of the upstream usage record carried by a
response.completed event; absent fields are none.  Upstream token values
are embedded as integers. -/
structure RawUsage : Type where
  input_tokens : Option Int
  input_tokens_details : Option RawTokenDetails
  output_tokens : Option Int
deriving DecidableEq

/-- Embedding of parseUsage of exec.ts: coerce the upstream fields,
defaulting each missing field (or the whole missing record) to zero. -/
def parseUsage (usage : Option RawUsage) : Usage :=
  { input_tokens := (usage.bind RawUsage.input_tokens).getD 0
    cached_input_tokens :=
      ((usage.bind RawUsage.input_tokens_details).bind RawTokenDetails.cached_tokens).getD 0
    output_tokens := (usage.bind RawUsage.output_tokens).getD 0 }

/-- One content part of a request entry, as built for the body's input. -/
structure ContentPart : Type where
  type : String
  text : String
deriving DecidableEq

/-- One entry of the request body's input list. -/
structure RequestEntry : Type where
  role : String
  content : List ContentPart
deriving DecidableEq

/-- The normalized events emitted by the HTTP transport (the JSON strings
yielded by runHttp, in structured form; JSON.stringify of these records is
injective, so the structured form is a faithful embedding). -/
inductive NEvent : Type
  | threadStarted (thread_id : String)
  | turnStarted
  | itemStarted (id : String) (text : String)
  | itemCompleted (id : String) (text : String)
  | turnCompleted (usage : Usage)
  | turnFailed (message : String)
deriving DecidableEq

/-- The decoded SSE events consumed by runHttp's loop, in the shape the
loop inspects them: the type tag together with the fields read off the
parsed JSON (absent fields are none); events of any other type are
represented by the other constructor and ignored by the loop. -/
inductive SseEvent : Type
  | outputItemDone (itemType : Option String) (text : Option String)
  | responseCompleted (usage : Option RawUsage)
  | errorEvent (message : Option String)
  | other
deriving DecidableEq

/-- Observable steps of one run call: issuing the HTTP request (with the
request body's input list), the response becoming available, spawning the
subprocess, yielding a raw subprocess line, yielding a normalized event. -/
inductive Step : Type
  | requestSent (input : List RequestEntry)
  | responseAvailable
  | spawned
  | yieldLine (line : String)
  | yieldEv (e : NEvent)
deriving DecidableEq

/-- Model of the AbortSignal threaded through one call: whether a signal
is present, whether it is already aborted at entry into runHttp, whether
it fires during the short pre-request wait, and the stringified reason. -/
structure SignalState : Type where
  present : Bool
  abortedBefore : Bool
  firesDuringWait : Bool
  reason : String
deriving DecidableEq

/-- The common case: no AbortSignal was supplied. -/
def noSignal : SignalState := ⟨false, false, false, "aborted"⟩

/-- Outcome of the awaited fetch: either the promise rejected (network
failure or abort), or a response arrived with its ok flag, status code,
body text (as read for the failure message) and, when a body stream is
present, the list of decoded SSE events it delivers followed by an
optional error raised by the decoding iterator after those events
(cancellation observed inside parseSse, or a JSON parse failure). -/
inductive FetchOutcome : Type
  | thrown (msg : String)
  | resp (ok : Bool) (status : Nat) (bodyText : String)
      (body : Option (List SseEvent × Option String))
deriving DecidableEq

/-- The process-wide history store, keyed by thread id; get of an unknown
id is the empty list, exactly as histories.get(threadId) with a default of
the empty array. -/
def Hist : Type := String → List ConversationMessage

/-- Embedding of histories.set(threadId, updatedHistory). -/
def setHist (h : Hist) (threadId : String) (msgs : List ConversationMessage) : Hist :=
  fun t => if t = threadId then msgs else h t

/-- Embedding of the arguments of one call (the fields of CodexExecArgs
that the modelled control flow reads). -/
structure CodexExecArgs : Type where
  input : String
  baseUrl : Option String
  apiKey : Option String
  threadId : Option String
  workingDirectory : Option String
  skipGitRepoCheck : Bool
deriving DecidableEq

/-- Observable state of the file system and the subprocess for one call:
whether the .git marker exists under the working directory, whether the
child's stdin and stdout channels are present, an asynchronous spawn
error if any, the newline-delimited lines the child writes to stdout, the
accumulated stderr text, and the exit code. -/
structure ProcessWorld : Type where
  gitMarkerExists : Bool
  stdinPresent : Bool
  stdoutPresent : Bool
  spawnError : Option String
  stdoutLines : List String
  stderrText : String
  exitCode : Int
deriving DecidableEq

/-- Result of one run call: the trace of observable steps in order, the
outcome (normal end of the generator, or the message of the raised
error), and the history store after the call. -/
structure RunOut : Type where
  trace : List Step
  outcome : Except String Unit
  histories : Hist

/-- True when the outcome is a normal end of the stream. -/
def RunOut.ok (r : RunOut) : Bool :=
  match r.outcome with
  | Except.ok _ => true
  | Except.error _ => false

/-- State and output of the event loop of runHttp over the decoded SSE
events: emitted steps, the pending history copy, the assistant counter,
the completed and failed flags, and the exception cutting the loop short
if one was raised. -/
structure LoopOut : Type where
  steps : List Step
  hist : List ConversationMessage
  count : Nat
  completed : Bool
  failed : Bool
  exc : Option String

/-- Embedding of the for-await loop of runHttp over the decoded events.
An output-item-completion event appends the item text to the pending
history, emits item.started when progress visibility was requested
(a signal is present) and item.completed, except that a function_call
item with a signal present raises before item.completed; a
response-completion event emits turn.completed and marks completion; an
error event emits turn.failed and marks failure; other events are
skipped. -/
def httpLoop (sig : SignalState) :
    List SseEvent → List ConversationMessage → Nat → Bool → Bool → LoopOut
  | [], hist, count, completed, failed => ⟨[], hist, count, completed, failed, none⟩
  | SseEvent.outputItemDone itemType textOpt :: rest, hist, count, completed, failed =>
    let text := textOpt.getD ""
    let hist' := hist ++ [⟨Role.assistant, text⟩]
    let started : List Step :=
      if sig.present then [Step.yieldEv (NEvent.itemStarted ("item_" ++ toString count) text)]
      else []
    if sig.present ∧ itemType = some "function_call" then
      ⟨started, hist', count, completed, failed, some sig.reason⟩
    else
      let out := httpLoop sig rest hist' (count + 1) completed failed
      ⟨started ++ Step.yieldEv (NEvent.itemCompleted ("item_" ++ toString count) text) :: out.steps,
        out.hist, out.count, out.completed, out.failed, out.exc⟩
  | SseEvent.responseCompleted u :: rest, hist, count, completed, failed =>
    let _ := completed
    let out := httpLoop sig rest hist count true failed
    ⟨Step.yieldEv (NEvent.turnCompleted (parseUsage u)) :: out.steps,
      out.hist, out.count, out.completed, out.failed, out.exc⟩
  | SseEvent.errorEvent m :: rest, hist, count, completed, failed =>
    let _ := failed
    let msg := "stream disconnected before completion: " ++
      m.getD "stream disconnected before completion"
    let out := httpLoop sig rest hist count completed true
    ⟨Step.yieldEv (NEvent.turnFailed msg) :: out.steps,
      out.hist, out.count, out.completed, out.failed, out.exc⟩
  | SseEvent.other :: rest, hist, count, completed, failed =>
    httpLoop sig rest hist count completed failed

/-- The request entry built from one stored conversation message:
assistant entries are tagged as model output text, user entries as user
input text. -/
def entryOfMessage (m : ConversationMessage) : RequestEntry :=
  ⟨match m.role with
    | Role.user => "user"
    | Role.assistant => "assistant",
   [⟨match m.role with
      | Role.user => "input_text"
      | Role.assistant => "output_text",
     m.text⟩]⟩

/-- Embedding of CodexExec.runHttp.  Pre-flight: an already-aborted
signal, or one firing during the short wait, raises before anything else.
Then the thread id is resolved, the stored history is read and the request
input is built from it with the new user turn appended last; the request
is issued.  A rejected fetch raises.  Otherwise thread.started and
turn.started are yielded; a non-success status or a missing body yields a
single turn.failed and ends the stream; otherwise the decoded events are
folded by httpLoop, a stream ending with neither completion nor failure
yields a final turn.failed, and the pending history is committed only when
completion was reached and nothing raised. -/
def runHttp (args : CodexExecArgs) (freshId : String) (sig : SignalState)
    (fetch : FetchOutcome) (histories : Hist) : RunOut :=
  if sig.present ∧ sig.abortedBefore then ⟨[], Except.error sig.reason, histories⟩
  else if sig.present ∧ sig.firesDuringWait then ⟨[], Except.error sig.reason, histories⟩
  else
    let threadId := args.threadId.getD ("thread_" ++ freshId)
    let history := histories threadId
    let input := history.map entryOfMessage ++
      [RequestEntry.mk "user" [ContentPart.mk "input_text" args.input]]
    match fetch with
    | FetchOutcome.thrown msg => ⟨[Step.requestSent input], Except.error msg, histories⟩
    | FetchOutcome.resp ok status bodyText body =>
      let updatedHistory := history ++ [⟨Role.user, args.input⟩]
      let pre : List Step := [Step.requestSent input, Step.responseAvailable,
        Step.yieldEv (NEvent.threadStarted threadId), Step.yieldEv NEvent.turnStarted]
      if ok = false then
        ⟨pre ++ [Step.yieldEv (NEvent.turnFailed
          ("request failed with status " ++ toString status ++ ": " ++ bodyText))],
          Except.ok (), histories⟩
      else
        match body with
        | none =>
          ⟨pre ++ [Step.yieldEv (NEvent.turnFailed
            "stream disconnected before completion: missing response body")],
            Except.ok (), histories⟩
        | some (events, streamErr) =>
          let out := httpLoop sig events updatedHistory 0 false false
          match out.exc with
          | some msg => ⟨pre ++ out.steps, Except.error msg, histories⟩
          | none =>
            match streamErr with
            | some msg => ⟨pre ++ out.steps, Except.error msg, histories⟩
            | none =>
              let tail : List Step :=
                if out.completed = false ∧ out.failed = false then
                  [Step.yieldEv (NEvent.turnFailed
                    "stream disconnected before completion: missing completion event")]
                else []
              let post := if out.completed then setHist histories threadId out.hist
                else histories
              ⟨pre ++ out.steps ++ tail, Except.ok (), post⟩

/-- Embedding of the subprocess branch of CodexExec.run: spawn, fail if
stdin or stdout is missing, yield each stdout line, then raise a recorded
spawn error if any, then settle on the exit code: zero ends normally, any
other code raises with the code and the accumulated stderr text in the
message.  The history store is never touched on this path. -/
def processRun (world : ProcessWorld) (histories : Hist) : RunOut :=
  if world.stdinPresent = false then
    ⟨[Step.spawned], Except.error "Child process has no stdin", histories⟩
  else if world.stdoutPresent = false then
    ⟨[Step.spawned], Except.error "Child process has no stdout", histories⟩
  else
    let lineSteps := world.stdoutLines.map Step.yieldLine
    match world.spawnError with
    | some e => ⟨Step.spawned :: lineSteps, Except.error e, histories⟩
    | none =>
      if world.exitCode = 0 then ⟨Step.spawned :: lineSteps, Except.ok (), histories⟩
      else
        ⟨Step.spawned :: lineSteps,
          Except.error ("Codex Exec exited with code " ++ toString world.exitCode ++ ": " ++
            world.stderrText),
          histories⟩

/-- Embedding of CodexExec.run: first the working-directory trust check
(a truthy working directory without the skip flag must contain the .git
marker, otherwise the call raises before anything is started), then
transport selection on a truthy baseUrl: the HTTP path or the subprocess
path. -/
def run (args : CodexExecArgs) (world : ProcessWorld) (freshId : String)
    (sig : SignalState) (fetch : FetchOutcome) (histories : Hist) : RunOut :=
  if args.workingDirectory.getD "" ≠ "" ∧ args.skipGitRepoCheck = false ∧
      world.gitMarkerExists = false then
    ⟨[], Except.error "Not inside a trusted directory", histories⟩
  else if args.baseUrl.getD "" ≠ "" then
    runHttp args freshId sig fetch histories
  else
    processRun world histories

/-- The normalized events of a trace, in order. -/
def eventsOf (trace : List Step) : List NEvent :=
  trace.filterMap fun s =>
    match s with
    | Step.yieldEv e => some e
    | _ => none

/-- The raw subprocess lines of a trace, in order. -/
def linesOf (trace : List Step) : List String :=
  trace.filterMap fun s =>
    match s with
    | Step.yieldLine l => some l
    | _ => none

/-- True for the step that yields a turn.completed event. -/
def isTurnCompletedStep : Step → Bool
  | Step.yieldEv (NEvent.turnCompleted _) => true
  | _ => false

/-- True for the response-availability step. -/
def isResponseAvailableStep : Step → Bool
  | Step.responseAvailable => true
  | _ => false

/-- True for either kind of yielding step. -/
def isYieldStep : Step → Bool
  | Step.yieldEv _ => true
  | Step.yieldLine _ => true
  | _ => false

/-- The assistant messages the loop appends for a list of decoded
events: one per output-item-completion event, in order, with the item
text (empty when absent). -/
def assistantMessagesOf (events : List SseEvent) : List ConversationMessage :=
  events.filterMap fun e =>
    match e with
    | SseEvent.outputItemDone _ t => some ⟨Role.assistant, t.getD ""⟩
    | _ => none

/-- True for SSE events of type response.completed. -/
def isRespCompletedEv : SseEvent → Bool
  | SseEvent.responseCompleted _ => true
  | _ => false

/-- True for SSE events of type error. -/
def isErrorEv : SseEvent → Bool
  | SseEvent.errorEvent _ => true
  | _ => false

theorem httpLoop_completed (sig : SignalState) (evs : List SseEvent) :
    ∀ hist count comp fail,
      (httpLoop sig evs hist count comp fail).completed =
        (comp || (httpLoop sig evs hist count comp fail).steps.any isTurnCompletedStep) := by
  induction evs with
  | nil => intro h c cp f; simp [httpLoop]
  | cons e rest ih =>
    intro h c cp f
    cases e with
    | outputItemDone itemType textOpt =>
      simp only [httpLoop]
      by_cases hif : sig.present = true ∧ itemType = some "function_call"
      · rw [if_pos hif]
        by_cases hp : sig.present = true
        · simp [hp, isTurnCompletedStep]
        · simp only [Bool.not_eq_true] at hp
          simp [hp, isTurnCompletedStep]
      · rw [if_neg hif]
        by_cases hp : sig.present = true
        · simp [hp, isTurnCompletedStep, ih]
        · simp only [Bool.not_eq_true] at hp
          simp [hp, isTurnCompletedStep, ih]
    | responseCompleted u =>
      simp [httpLoop, isTurnCompletedStep, ih]
    | errorEvent m =>
      simp [httpLoop, isTurnCompletedStep, ih]
    | other =>
      simp [httpLoop, ih]

theorem httpLoop_exc_none (sig : SignalState) (hp : sig.present = false)
    (evs : List SseEvent) :
    ∀ hist count comp fail, (httpLoop sig evs hist count comp fail).exc = none := by
  induction evs with
  | nil => intro h c cp f; simp [httpLoop]
  | cons e rest ih =>
    intro h c cp f
    cases e with
    | outputItemDone itemType textOpt => simp [httpLoop, hp, ih]
    | responseCompleted u => simp [httpLoop, ih]
    | errorEvent m => simp [httpLoop, ih]
    | other => simp [httpLoop, ih]

theorem httpLoop_hist (sig : SignalState) (evs : List SseEvent) :
    ∀ hist count comp fail,
      (httpLoop sig evs hist count comp fail).exc = none →
      (httpLoop sig evs hist count comp fail).hist = hist ++ assistantMessagesOf evs := by
  induction evs with
  | nil => intro h c cp f _; simp [httpLoop, assistantMessagesOf]
  | cons e rest ih =>
    intro h c cp f hexc
    cases e with
    | outputItemDone itemType textOpt =>
      simp only [httpLoop] at hexc ⊢
      by_cases hif : sig.present = true ∧ itemType = some "function_call"
      · rw [if_pos hif] at hexc
        simp at hexc
      · rw [if_neg hif] at hexc ⊢
        simp only at hexc ⊢
        rw [ih _ _ _ _ hexc]
        simp [assistantMessagesOf]
    | responseCompleted u =>
      simp only [httpLoop] at hexc ⊢
      rw [ih _ _ _ _ hexc]
      simp [assistantMessagesOf]
    | errorEvent m =>
      simp only [httpLoop] at hexc ⊢
      rw [ih _ _ _ _ hexc]
      simp [assistantMessagesOf]
    | other =>
      simp only [httpLoop] at hexc ⊢
      rw [ih _ _ _ _ hexc]
      simp [assistantMessagesOf]

theorem httpLoop_concat_error (sig : SignalState) (hp : sig.present = false)
    (evs : List SseEvent) (m : Option String) :
    ∀ hist count comp fail,
      httpLoop sig (evs ++ [SseEvent.errorEvent m]) hist count comp fail =
        { steps := (httpLoop sig evs hist count comp fail).steps ++
            [Step.yieldEv (NEvent.turnFailed ("stream disconnected before completion: " ++
              m.getD "stream disconnected before completion"))],
          hist := (httpLoop sig evs hist count comp fail).hist,
          count := (httpLoop sig evs hist count comp fail).count,
          completed := (httpLoop sig evs hist count comp fail).completed,
          failed := true,
          exc := none } := by
  induction evs with
  | nil =>
    intro h c cp f
    simp [httpLoop]
  | cons e rest ih =>
    intro h c cp f
    cases e with
    | outputItemDone itemType textOpt =>
      rw [List.cons_append, httpLoop, httpLoop]
      have hif : ¬ (sig.present = true ∧ itemType = some "function_call") := by
        intro hcon
        rw [hp] at hcon
        exact absurd hcon.1 (by simp)
      rw [if_neg hif, if_neg hif]
      simp only
      rw [ih _ _ _ _]
      simp [List.append_assoc]
    | responseCompleted u =>
      rw [List.cons_append, httpLoop, httpLoop]
      simp only
      rw [ih _ _ _ _]
      simp
    | errorEvent m' =>
      rw [List.cons_append, httpLoop, httpLoop]
      simp only
      rw [ih _ _ _ _]
      simp
    | other =>
      rw [List.cons_append, httpLoop, httpLoop]
      exact ih _ _ _ _

theorem httpLoop_completed_const (sig : SignalState) (evs : List SseEvent)
    (hno : evs.any isRespCompletedEv = false) :
    ∀ hist count comp fail, (httpLoop sig evs hist count comp fail).completed = comp := by
  induction evs with
  | nil => intro h c cp f; simp [httpLoop]
  | cons e rest ih =>
    intro h c cp f
    have hrest : rest.any isRespCompletedEv = false := by
      simp only [List.any_cons, Bool.or_eq_false_iff] at hno
      exact hno.2
    cases e with
    | outputItemDone itemType textOpt =>
      simp only [httpLoop]
      by_cases hif : sig.present = true ∧ itemType = some "function_call"
      · rw [if_pos hif]
      · rw [if_neg hif]
        simp only
        exact ih hrest _ _ _ _
    | responseCompleted u =>
      simp [isRespCompletedEv] at hno
    | errorEvent m =>
      simp only [httpLoop]
      exact ih hrest _ _ _ _
    | other =>
      simp only [httpLoop]
      exact ih hrest _ _ _ _

theorem httpLoop_failed_const (sig : SignalState) (evs : List SseEvent)
    (hno : evs.any isErrorEv = false) :
    ∀ hist count comp fail, (httpLoop sig evs hist count comp fail).failed = fail := by
  induction evs with
  | nil => intro h c cp f; simp [httpLoop]
  | cons e rest ih =>
    intro h c cp f
    have hrest : rest.any isErrorEv = false := by
      simp only [List.any_cons, Bool.or_eq_false_iff] at hno
      exact hno.2
    cases e with
    | outputItemDone itemType textOpt =>
      simp only [httpLoop]
      by_cases hif : sig.present = true ∧ itemType = some "function_call"
      · rw [if_pos hif]
      · rw [if_neg hif]
        simp only
        exact ih hrest _ _ _ _
    | responseCompleted u =>
      simp only [httpLoop]
      exact ih hrest _ _ _ _
    | errorEvent m =>
      simp [isErrorEv] at hno
    | other =>
      simp only [httpLoop]
      exact ih hrest _ _ _ _

theorem processRun_histories (world : ProcessWorld) (histories : Hist) :
    (processRun world histories).histories = histories := by
  unfold processRun
  split
  · rfl
  · split
    · rfl
    · cases world.spawnError
      · dsimp only
        split <;> rfl
      · rfl

theorem runHttp_commit (args : CodexExecArgs) (freshId : String) (sig : SignalState)
    (fetch : FetchOutcome) (histories : Hist) :
    (runHttp args freshId sig fetch histories).histories = histories ∨
      (runHttp args freshId sig fetch histories).trace.any isTurnCompletedStep = true := by
  simp only [runHttp]
  split
  · left; rfl
  · split
    · left; rfl
    · cases fetch with
      | thrown msg => left; rfl
      | resp ok status bodyText body =>
        dsimp only
        split
        · left; rfl
        · cases body with
          | none => left; rfl
          | some p =>
            obtain ⟨events, streamErr⟩ := p
            dsimp only
            cases hexc : (httpLoop sig events
                ((histories (args.threadId.getD ("thread_" ++ freshId))) ++
                  [⟨Role.user, args.input⟩]) 0 false false).exc with
            | some msg => simp [hexc]
            | none =>
              simp only [hexc]
              cases streamErr with
              | some msg => left; rfl
              | none =>
                dsimp only
                by_cases hc : (httpLoop sig events
                    ((histories (args.threadId.getD ("thread_" ++ freshId))) ++
                      [⟨Role.user, args.input⟩]) 0 false false).completed = true
                · right
                  have hany := httpLoop_completed sig events
                    ((histories (args.threadId.getD ("thread_" ++ freshId))) ++
                      [⟨Role.user, args.input⟩]) 0 false false
                  rw [hc] at hany
                  simp only [Bool.false_or] at hany
                  simp [List.any_append, ← hany]
                · left
                  simp only [Bool.not_eq_true] at hc
                  simp [hc]

theorem run_commit (args : CodexExecArgs) (world : ProcessWorld) (freshId : String)
    (sig : SignalState) (fetch : FetchOutcome) (histories : Hist) :
    (run args world freshId sig fetch histories).histories = histories ∨
      (run args world freshId sig fetch histories).trace.any isTurnCompletedStep = true := by
  unfold run
  split
  · left; rfl
  · split
    · exact runHttp_commit args freshId sig fetch histories
    · left
      exact processRun_histories world histories

/-- C1: for every thread and every turn, if the turn does not reach a
turn.completed event (it fails, is aborted, or the stream ends without a
completion marker), then the History Store's mapping after the call equals
its value before the call, for every thread id; in other words the stored
history is replaced only when the turn reached turn.completed. -/
theorem history_unchanged_without_turn_completed
    (args : CodexExecArgs) (world : ProcessWorld) (freshId : String) (sig : SignalState)
    (fetch : FetchOutcome) (histories : Hist)
    (h : (run args world freshId sig fetch histories).trace.any isTurnCompletedStep = false) :
    (run args world freshId sig fetch histories).histories = histories := by
  rcases run_commit args world freshId sig fetch histories with hu | hc
  · exact hu
  · rw [hc] at h
    exact absurd h (by simp)

/-- The empty history store. -/
def histEmpty : Hist := fun _ => []

/-- Witness for C1 at a concrete input: a turn whose fetch promise
rejects emits no turn.completed, and the store is unchanged. -/
theorem history_unchanged_without_turn_completed_witness :
    (run ⟨"hi", some "http://u", none, some "t", none, false⟩
        ⟨true, true, true, none, [], "", 0⟩ "f" noSignal
        (FetchOutcome.thrown "network down") histEmpty).histories = histEmpty :=
  history_unchanged_without_turn_completed _ _ _ _ _ _ (by decide)

/-- The blank-line delimiter separating SSE segments. -/
def sseBlank : List Char := ['\n', '\n']

/-- C3: the SSE decoder is chunk-boundary invariant: decoding any list of
chunks incrementally yields the same ordered event sequence as decoding
the concatenated stream as one chunk; every decoded stream's events are
exactly the data lines of the complete (delimiter-terminated) segments,
the trailing unterminated remainder contributing nothing; in particular a
stream containing no blank-line delimiter yields no events at all. -/
theorem parseSse_chunk_invariant :
    (∀ chunks : List (List Char), parseSse chunks = parseSse [chunks.flatten]) ∧
    (∀ chunks : List (List Char), parseSse chunks = sseEventsOf chunks.flatten) ∧
    (∀ s : List Char, ¬ sseBlank <:+: s → parseSse [s] = []) := by
  have hone : ∀ chunks : List (List Char), parseSse chunks = sseEventsOf chunks.flatten := by
    intro chunks
    cases chunks with
    | nil =>
      show ([] : List (List Char)) = sseEventsOf []
      simp [sseEventsOf, splitSeg_nil]
    | cons c cs =>
      show parseSseGo [] (c :: cs) = _
      rw [parseSseGo_eq [] c cs]
      simp [List.flatten_cons]
  refine ⟨?_, hone, ?_⟩
  · intro chunks
    rw [hone chunks, hone [chunks.flatten]]
    simp
  · intro s h
    rw [hone [s]]
    have hs : ([s] : List (List Char)).flatten = s := by simp
    rw [hs, sseEventsOf, splitSeg_no_sep '\n' ['\n'] s h]
    simp

/-- Witness for C3 at concrete inputs: a stream split mid-line and
mid-delimiter decodes as if delivered whole, and a stream with no
blank-line delimiter decodes to nothing. -/
theorem parseSse_chunk_invariant_witness :
    parseSse [['d', 'a'], ['t', 'a', ':', ' ', '7', '\n'], ['\n', 'd', 'a', 't', 'a', ':', '8']] =
      parseSse [['d', 'a', 't', 'a', ':', ' ', '7', '\n', '\n', 'd', 'a', 't', 'a', ':', '8']] ∧
    parseSse [['d', 'a', 't', 'a', ':', ' ', '9']] = [] :=
  ⟨parseSse_chunk_invariant.1 [['d', 'a'], ['t', 'a', ':', ' ', '7', '\n'],
      ['\n', 'd', 'a', 't', 'a', ':', '8']],
    parseSse_chunk_invariant.2.2 ['d', 'a', 't', 'a', ':', ' ', '9'] (by decide)⟩

theorem string_data_append (s t : String) : (s ++ t).data = s.data ++ t.data := rfl

/-- C5: on the process path, a zero exit code with any list of stdout
lines yields exactly those lines as events, in order, and the stream ends
without error; a non-zero exit code still yields all lines and then raises
an error whose message contains the exit code and the exact accumulated
stderr text. -/
theorem process_exit_semantics :
    (∀ (inp : String) (tid : Option String) (lines : List String) (stderrText : String)
        (freshId : String) (sig : SignalState) (fetch : FetchOutcome) (histories : Hist),
      linesOf (run ⟨inp, none, none, tid, none, false⟩
          ⟨true, true, true, none, lines, stderrText, 0⟩ freshId sig fetch histories).trace
          = lines ∧
      (run ⟨inp, none, none, tid, none, false⟩
          ⟨true, true, true, none, lines, stderrText, 0⟩ freshId sig fetch histories).outcome
          = Except.ok ()) ∧
    (∀ (inp : String) (tid : Option String) (lines : List String) (stderrText : String)
        (code : Int) (freshId : String) (sig : SignalState) (fetch : FetchOutcome)
        (histories : Hist), code ≠ 0 →
      linesOf (run ⟨inp, none, none, tid, none, false⟩
          ⟨true, true, true, none, lines, stderrText, code⟩ freshId sig fetch histories).trace
          = lines ∧
      ∃ msg, (run ⟨inp, none, none, tid, none, false⟩
          ⟨true, true, true, none, lines, stderrText, code⟩ freshId sig fetch histories).outcome
          = Except.error msg ∧
        (toString code).data <:+: msg.data ∧ stderrText.data <:+: msg.data) := by
  have hrun : ∀ (inp : String) (tid : Option String) (w : ProcessWorld)
      (freshId : String) (sig : SignalState) (fetch : FetchOutcome) (histories : Hist),
      run ⟨inp, none, none, tid, none, false⟩ w freshId sig fetch histories =
        processRun w histories := by
    intro inp tid w freshId sig fetch histories
    unfold run
    simp
  have haux : ∀ lines : List String, linesOf (lines.map Step.yieldLine) = lines := by
    intro lines
    induction lines with
    | nil => rfl
    | cons l ls ih =>
      simp only [linesOf, List.map_cons, List.filterMap_cons] at ih ⊢
      rw [ih]
  have hlines : ∀ lines : List String,
      linesOf (Step.spawned :: lines.map Step.yieldLine) = lines := by
    intro lines
    have h0 : linesOf (Step.spawned :: lines.map Step.yieldLine) =
        linesOf (lines.map Step.yieldLine) := by
      simp only [linesOf, List.filterMap_cons]
    rw [h0, haux]
  constructor
  · intro inp tid lines stderrText freshId sig fetch histories
    rw [hrun]
    have hpr : processRun ⟨true, true, true, none, lines, stderrText, 0⟩ histories =
        ⟨Step.spawned :: lines.map Step.yieldLine, Except.ok (), histories⟩ := by
      unfold processRun
      simp
    rw [hpr]
    exact ⟨hlines lines, rfl⟩
  · intro inp tid lines stderrText code freshId sig fetch histories hcode
    rw [hrun]
    have hpr : processRun ⟨true, true, true, none, lines, stderrText, code⟩ histories =
        ⟨Step.spawned :: lines.map Step.yieldLine,
          Except.error ("Codex Exec exited with code " ++ toString code ++ ": " ++ stderrText),
          histories⟩ := by
      unfold processRun
      simp [hcode]
    rw [hpr]
    refine ⟨hlines lines,
      "Codex Exec exited with code " ++ toString code ++ ": " ++ stderrText, rfl, ?_, ?_⟩
    · exact ⟨("Codex Exec exited with code ").data, (": " ++ stderrText).data, by
        simp [string_data_append, List.append_assoc]⟩
    · exact ⟨("Codex Exec exited with code " ++ toString code ++ ": ").data, [], by
        simp [string_data_append]⟩

/-- Witness for C5: a process turn with two output lines and exit code 3
yields the two lines and an error mentioning the code and stderr. -/
theorem process_exit_semantics_witness :
    linesOf (run ⟨"go", none, none, none, none, false⟩
        ⟨true, true, true, none, ["l1", "l2"], "bad", 3⟩ "f" noSignal
        (FetchOutcome.thrown "unused") histEmpty).trace = ["l1", "l2"] ∧
    ∃ msg, (run ⟨"go", none, none, none, none, false⟩
        ⟨true, true, true, none, ["l1", "l2"], "bad", 3⟩ "f" noSignal
        (FetchOutcome.thrown "unused") histEmpty).outcome = Except.error msg ∧
      (toString (3 : Int)).data <:+: msg.data ∧ ("bad" : String).data <:+: msg.data :=
  process_exit_semantics.2 "go" none ["l1", "l2"] "bad" 3 "f" noSignal
    (FetchOutcome.thrown "unused") histEmpty (by decide)

/-- C9: a truthy working directory without the .git marker and without the
skip flag makes the call fail immediately with the untrusted-directory
error: the outcome is that error, the trace is empty (in particular no
subprocess was spawned), and the store is untouched. -/
theorem untrusted_directory_rejected
    (args : CodexExecArgs) (world : ProcessWorld) (freshId : String) (sig : SignalState)
    (fetch : FetchOutcome) (histories : Hist) (w : String)
    (hwd : args.workingDirectory = some w) (hw : w ≠ "")
    (hskip : args.skipGitRepoCheck = false) (hmarker : world.gitMarkerExists = false) :
    (run args world freshId sig fetch histories).outcome =
        Except.error "Not inside a trusted directory" ∧
      (run args world freshId sig fetch histories).trace = [] ∧
      (run args world freshId sig fetch histories).histories = histories := by
  unfold run
  rw [if_pos ⟨by rw [hwd]; simpa using hw, hskip, hmarker⟩]
  exact ⟨rfl, rfl, rfl⟩

/-- Witness for C9 at a concrete input. -/
theorem untrusted_directory_rejected_witness :
    (run ⟨"x", none, none, none, some "/tmp/d", false⟩
        ⟨false, true, true, none, [], "", 0⟩ "f" noSignal
        (FetchOutcome.thrown "unused") histEmpty).outcome =
      Except.error "Not inside a trusted directory" ∧
    (run ⟨"x", none, none, none, some "/tmp/d", false⟩
        ⟨false, true, true, none, [], "", 0⟩ "f" noSignal
        (FetchOutcome.thrown "unused") histEmpty).trace = [] ∧
    (run ⟨"x", none, none, none, some "/tmp/d", false⟩
        ⟨false, true, true, none, [], "", 0⟩ "f" noSignal
        (FetchOutcome.thrown "unused") histEmpty).histories = histEmpty :=
  untrusted_directory_rejected _ _ _ _ _ _ "/tmp/d" rfl (by decide) rfl rfl

/-- C10: the trust check runs before transport selection: even with a
remote endpoint configured, an untrusted working directory without the
skip flag makes the call raise before any HTTP request is issued (the
trace is empty, so no requestSent step ever happens). -/
theorem trust_check_precedes_transport
    (args : CodexExecArgs) (world : ProcessWorld) (freshId : String) (sig : SignalState)
    (fetch : FetchOutcome) (histories : Hist) (u w : String)
    (_hbase : args.baseUrl = some u) (_hu : u ≠ "")
    (hwd : args.workingDirectory = some w) (hw : w ≠ "")
    (hskip : args.skipGitRepoCheck = false) (hmarker : world.gitMarkerExists = false) :
    (run args world freshId sig fetch histories).outcome =
        Except.error "Not inside a trusted directory" ∧
      (run args world freshId sig fetch histories).trace = [] := by
  unfold run
  rw [if_pos ⟨by rw [hwd]; simpa using hw, hskip, hmarker⟩]
  exact ⟨rfl, rfl⟩

/-- Witness for C10 at a concrete input. -/
theorem trust_check_precedes_transport_witness :
    (run ⟨"x", some "http://u", none, none, some "/tmp/d", false⟩
        ⟨false, true, true, none, [], "", 0⟩ "f" noSignal
        (FetchOutcome.thrown "unused") histEmpty).outcome =
      Except.error "Not inside a trusted directory" ∧
    (run ⟨"x", some "http://u", none, none, some "/tmp/d", false⟩
        ⟨false, true, true, none, [], "", 0⟩ "f" noSignal
        (FetchOutcome.thrown "unused") histEmpty).trace = [] :=
  trust_check_precedes_transport _ _ _ _ _ _ "http://u" "/tmp/d"
    rfl (by decide) rfl (by decide) rfl rfl

/-- A concrete HTTP turn used to examine the position of the synthesized
thread.started and turn.started events relative to response arrival. -/
def c6Run : RunOut :=
  runHttp ⟨"hello", some "http://u", none, some "t", none, false⟩ "f" noSignal
    (FetchOutcome.resp true 200 "" (some ([SseEvent.responseCompleted none], none)))
    histEmpty

/-- Counterexample to C6 as stated: in the code the fetch is awaited
first and only then are thread.started and turn.started yielded, so at
this concrete input the thread.started event is in the trace, the
response-availability point is in the trace, and no event at all is
emitted before the response is available — the claim that both events are
emitted before any network response is available is false here. -/
theorem synthesized_events_counterexample :
    Step.yieldEv (NEvent.threadStarted "t") ∈ c6Run.trace ∧
    Step.responseAvailable ∈ c6Run.trace ∧
    Step.yieldEv (NEvent.threadStarted "t") ∉
      (c6Run.trace.takeWhile fun s => !isResponseAvailableStep s) ∧
    ((c6Run.trace.takeWhile fun s => !isResponseAvailableStep s).all
      fun s => !isYieldStep s) = true := by decide

/-- C6 (amended): for every HTTP-path turn whose fetch resolves to a
response, the first two emitted events of the stream are thread.started
(carrying the resolved thread id) followed by turn.started; they are
synthesized right after the response becomes available and before any of
its status or body is examined (no event precedes the
response-availability point). -/
theorem synthesized_events_first
    (args : CodexExecArgs) (freshId : String) (sig : SignalState) (histories : Hist)
    (ok : Bool) (status : Nat) (bodyText : String)
    (body : Option (List SseEvent × Option String))
    (hp : sig.present = false) :
    (eventsOf (runHttp args freshId sig (FetchOutcome.resp ok status bodyText body)
        histories).trace).take 2 =
      [NEvent.threadStarted (args.threadId.getD ("thread_" ++ freshId)), NEvent.turnStarted] ∧
    (((runHttp args freshId sig (FetchOutcome.resp ok status bodyText body)
        histories).trace.takeWhile fun s => !isResponseAvailableStep s).all
      fun s => !isYieldStep s) = true := by
  have h1 : ¬ (sig.present = true ∧ sig.abortedBefore = true) := by simp [hp]
  have h2 : ¬ (sig.present = true ∧ sig.firesDuringWait = true) := by simp [hp]
  have hshape : ∃ inp X,
      (runHttp args freshId sig (FetchOutcome.resp ok status bodyText body) histories).trace =
        Step.requestSent inp :: Step.responseAvailable ::
          Step.yieldEv (NEvent.threadStarted (args.threadId.getD ("thread_" ++ freshId))) ::
          Step.yieldEv NEvent.turnStarted :: X := by
    simp only [runHttp, if_neg h1, if_neg h2]
    split
    · exact ⟨_, _, rfl⟩
    · cases body with
      | none => exact ⟨_, _, rfl⟩
      | some p =>
        obtain ⟨events, streamErr⟩ := p
        dsimp only
        cases (httpLoop sig events
            ((histories (args.threadId.getD ("thread_" ++ freshId))) ++
              [⟨Role.user, args.input⟩]) 0 false false).exc with
        | some msg => exact ⟨_, _, rfl⟩
        | none =>
          cases streamErr with
          | some msg => exact ⟨_, _, rfl⟩
          | none => exact ⟨_, _, rfl⟩
  obtain ⟨inp, X, hX⟩ := hshape
  rw [hX]
  constructor
  · simp [eventsOf, List.filterMap_cons]
  · simp [List.takeWhile_cons, isResponseAvailableStep, isYieldStep]

/-- Witness for the amended C6 at a concrete input. -/
theorem synthesized_events_first_witness :
    (eventsOf c6Run.trace).take 2 = [NEvent.threadStarted "t", NEvent.turnStarted] ∧
    ((c6Run.trace.takeWhile fun s => !isResponseAvailableStep s).all
      fun s => !isYieldStep s) = true :=
  synthesized_events_first ⟨"hello", some "http://u", none, some "t", none, false⟩ "f"
    noSignal histEmpty true 200 "" (some ([SseEvent.responseCompleted none], none)) rfl

/-- A first HTTP turn on thread t that succeeds with one assistant
message, used to examine the second turn's replayed history. -/
def c7FirstRun : RunOut :=
  runHttp ⟨"first input", some "http://u", none, some "t", none, false⟩ "f" noSignal
    (FetchOutcome.resp true 200 ""
      (some ([SseEvent.outputItemDone none (some "Hi!"),
              SseEvent.responseCompleted none], none)))
    histEmpty

/-- C7: for every HTTP-path turn that gets past the pre-flight
cancellation checks, the issued request's input is exactly the thread's
prior stored messages in order — each mapped to an entry whose role is
the stored role and whose single content part is tagged output_text for
assistant entries and input_text for user entries — followed by the new
user turn appended last; and concretely, a second turn on the same thread
carries the first turn's assistant message verbatim in its replayed
history. -/
theorem request_replays_history :
    (∀ (args : CodexExecArgs) (freshId : String) (sig : SignalState)
        (fetch : FetchOutcome) (histories : Hist),
      ¬ (sig.present = true ∧ sig.abortedBefore = true) →
      ¬ (sig.present = true ∧ sig.firesDuringWait = true) →
      (runHttp args freshId sig fetch histories).trace.head? =
        some (Step.requestSent
          ((histories (args.threadId.getD ("thread_" ++ freshId))).map entryOfMessage ++
            [RequestEntry.mk "user" [ContentPart.mk "input_text" args.input]]))) ∧
    (runHttp ⟨"second input", some "http://u", none, some "t", none, false⟩ "f" noSignal
        (FetchOutcome.thrown "unused") c7FirstRun.histories).trace.head? =
      some (Step.requestSent
        [⟨"user", [⟨"input_text", "first input"⟩]⟩,
         ⟨"assistant", [⟨"output_text", "Hi!"⟩]⟩,
         ⟨"user", [⟨"input_text", "second input"⟩]⟩]) := by
  constructor
  · intro args freshId sig fetch histories h1 h2
    simp only [runHttp, if_neg h1, if_neg h2]
    cases fetch with
    | thrown msg => rfl
    | resp ok status bodyText body =>
      dsimp only
      split
      · rfl
      · cases body with
        | none => rfl
        | some p =>
          obtain ⟨events, streamErr⟩ := p
          dsimp only
          cases (httpLoop sig events
              ((histories (args.threadId.getD ("thread_" ++ freshId))) ++
                [⟨Role.user, args.input⟩]) 0 false false).exc with
          | some msg => rfl
          | none =>
            cases streamErr with
            | some msg => rfl
            | none => rfl
  · decide

/-- Witness for C7 at a concrete input: a fresh thread with one stored
exchange replays it before the new user turn. -/
theorem request_replays_history_witness :
    (runHttp ⟨"next", some "http://u", none, some "t", none, false⟩ "f" noSignal
        (FetchOutcome.thrown "unused")
        (setHist histEmpty "t"
          [⟨Role.user, "q"⟩, ⟨Role.assistant, "a"⟩])).trace.head? =
      some (Step.requestSent
        (((setHist histEmpty "t" [⟨Role.user, "q"⟩, ⟨Role.assistant, "a"⟩])
            ((some "t").getD ("thread_" ++ "f"))).map entryOfMessage ++
          [RequestEntry.mk "user" [ContentPart.mk "input_text" "next"]])) :=
  request_replays_history.1 ⟨"next", some "http://u", none, some "t", none, false⟩ "f"
    noSignal (FetchOutcome.thrown "unused")
    (setHist histEmpty "t" [⟨Role.user, "q"⟩, ⟨Role.assistant, "a"⟩])
    (by decide) (by decide)

/-- Counterexample to C2 as stated: a successful turn on the process
transport (exit code 0) appends nothing at all to the History Store —
the stored list for the turn's thread is still empty afterwards, not the
prior value followed by the new user message. -/
theorem history_append_counterexample :
    (run ⟨"hi", none, none, some "t", none, false⟩
        ⟨true, true, true, none, ["line"], "", 0⟩ "f" noSignal
        (FetchOutcome.thrown "unused") histEmpty).ok = true ∧
    (run ⟨"hi", none, none, some "t", none, false⟩
        ⟨true, true, true, none, ["line"], "", 0⟩ "f" noSignal
        (FetchOutcome.thrown "unused") histEmpty).histories "t" = [] ∧
    ([] : List ConversationMessage) ≠ [⟨Role.user, "hi"⟩] := by
  refine ⟨by decide, rfl, by decide⟩

/-- C2 (amended): on the HTTP transport, a successful turn — one whose
stream ends normally and reached turn.completed — atomically replaces the
thread's stored list with its prior value followed by exactly one new
user message and then one assistant message per produced assistant item,
in order (entries of other threads are untouched, being part of the same
store equation); the process transport leaves the store unchanged. -/
theorem history_append_on_success :
    (∀ (args : CodexExecArgs) (freshId : String) (sig : SignalState) (histories : Hist)
        (ok : Bool) (status : Nat) (bodyText : String) (events : List SseEvent)
        (streamErr : Option String),
      (runHttp args freshId sig (FetchOutcome.resp ok status bodyText
          (some (events, streamErr))) histories).ok = true →
      (runHttp args freshId sig (FetchOutcome.resp ok status bodyText
          (some (events, streamErr))) histories).trace.any isTurnCompletedStep = true →
      (runHttp args freshId sig (FetchOutcome.resp ok status bodyText
          (some (events, streamErr))) histories).histories =
        setHist histories (args.threadId.getD ("thread_" ++ freshId))
          ((histories (args.threadId.getD ("thread_" ++ freshId))) ++
            ⟨Role.user, args.input⟩ :: assistantMessagesOf events)) ∧
    (∀ (args : CodexExecArgs) (world : ProcessWorld) (freshId : String) (sig : SignalState)
        (fetch : FetchOutcome) (histories : Hist), args.baseUrl = none →
      (run args world freshId sig fetch histories).histories = histories) := by
  constructor
  · intro args freshId sig histories ok status bodyText events streamErr hok hcomp
    by_cases h1 : (sig.present = true ∧ sig.abortedBefore = true)
    · simp only [runHttp] at hok
      rw [if_pos h1] at hok
      simp [RunOut.ok] at hok
    · by_cases h2 : (sig.present = true ∧ sig.firesDuringWait = true)
      · simp only [runHttp] at hok
        rw [if_neg h1, if_pos h2] at hok
        simp [RunOut.ok] at hok
      · simp only [runHttp, if_neg h1, if_neg h2] at hok hcomp ⊢
        by_cases hoke : ok = false
        · rw [if_pos hoke] at hcomp
          simp [isTurnCompletedStep] at hcomp
        · rw [if_neg hoke] at hok hcomp ⊢
          cases hexc : (httpLoop sig events
              ((histories (args.threadId.getD ("thread_" ++ freshId))) ++
                [⟨Role.user, args.input⟩]) 0 false false).exc with
          | some msg =>
            simp only [hexc] at hok
            simp [RunOut.ok] at hok
          | none =>
            simp only [hexc] at hok hcomp ⊢
            cases streamErr with
            | some msg => simp [RunOut.ok] at hok
            | none =>
              dsimp only at hok hcomp ⊢
              have hany := httpLoop_completed sig events
                ((histories (args.threadId.getD ("thread_" ++ freshId))) ++
                  [⟨Role.user, args.input⟩]) 0 false false
              simp only [Bool.false_or] at hany
              have hcompleted : (httpLoop sig events
                  ((histories (args.threadId.getD ("thread_" ++ freshId))) ++
                    [⟨Role.user, args.input⟩]) 0 false false).completed = true := by
                by_cases hc : (httpLoop sig events
                    ((histories (args.threadId.getD ("thread_" ++ freshId))) ++
                      [⟨Role.user, args.input⟩]) 0 false false).completed = true
                · exact hc
                · exfalso
                  simp only [Bool.not_eq_true] at hc
                  have hsteps : (httpLoop sig events
                      ((histories (args.threadId.getD ("thread_" ++ freshId))) ++
                        [⟨Role.user, args.input⟩]) 0 false false).steps.any
                      isTurnCompletedStep = false := by
                    rw [← hany, hc]
                  have htail : ∀ P : Prop, ∀ inst : Decidable P,
                      (if P then [Step.yieldEv (NEvent.turnFailed
                        "stream disconnected before completion: missing completion event")]
                      else []).any isTurnCompletedStep = false := by
                    intro P inst
                    split <;> simp [isTurnCompletedStep]
                  simp [List.any_append, isTurnCompletedStep, hsteps, htail] at hcomp
              rw [if_pos hcompleted]
              rw [httpLoop_hist sig events _ _ _ _ hexc]
              simp [assistantMessagesOf, List.append_assoc]
  · intro args world freshId sig fetch histories hbase
    unfold run
    split
    · rfl
    · split
      · rename_i hsel
        exfalso
        rw [hbase] at hsel
        simp at hsel
      · exact processRun_histories world histories

/-- Witness for the amended C2: a successful HTTP turn with two produced
assistant items commits the prior history, the new user message and both
assistant messages, in order. -/
theorem history_append_on_success_witness :
    (runHttp ⟨"hi", some "http://u", none, some "t", none, false⟩ "f" noSignal
        (FetchOutcome.resp true 200 ""
          (some ([SseEvent.outputItemDone none (some "a1"),
                  SseEvent.outputItemDone none (some "a2"),
                  SseEvent.responseCompleted none], none))) histEmpty).histories =
      setHist histEmpty "t"
        ((histEmpty "t") ++ ⟨Role.user, "hi"⟩ ::
          assistantMessagesOf [SseEvent.outputItemDone none (some "a1"),
            SseEvent.outputItemDone none (some "a2"),
            SseEvent.responseCompleted none]) := by
  have h := history_append_on_success.1 ⟨"hi", some "http://u", none, some "t", none, false⟩
    "f" noSignal histEmpty true 200 ""
    [SseEvent.outputItemDone none (some "a1"), SseEvent.outputItemDone none (some "a2"),
      SseEvent.responseCompleted none] none (by decide) (by decide)
  exact h

theorem httpLoop_error_mem (sig : SignalState) (hp : sig.present = false)
    (evs : List SseEvent) (m : Option String) :
    ∀ hist count comp fail, SseEvent.errorEvent m ∈ evs →
      Step.yieldEv (NEvent.turnFailed ("stream disconnected before completion: " ++
        m.getD "stream disconnected before completion")) ∈
        (httpLoop sig evs hist count comp fail).steps := by
  induction evs with
  | nil =>
    intro h c cp f hmem
    simp at hmem
  | cons e rest ih =>
    intro h c cp f hmem
    cases e with
    | outputItemDone itemType textOpt =>
      have hmem' : SseEvent.errorEvent m ∈ rest := by simpa using hmem
      simp only [httpLoop]
      have hif : ¬ (sig.present = true ∧ itemType = some "function_call") := by
        intro hcon
        rw [hp] at hcon
        exact absurd hcon.1 (by simp)
      rw [if_neg hif]
      simp only
      have hin := ih (h ++ [⟨Role.assistant, textOpt.getD ""⟩]) (c + 1) cp f hmem'
      simp [List.mem_append, hin]
    | responseCompleted u =>
      have hmem' : SseEvent.errorEvent m ∈ rest := by simpa using hmem
      simp only [httpLoop]
      have hin := ih h c true f hmem'
      simp [hin]
    | errorEvent m' =>
      simp only [httpLoop]
      rcases List.mem_cons.mp hmem with heq | hmem'
      · simp only [SseEvent.errorEvent.injEq] at heq
        subst heq
        simp
      · have hin := ih h c cp true hmem'
        simp [hin]
    | other =>
      have hmem' : SseEvent.errorEvent m ∈ rest := by simpa using hmem
      simp only [httpLoop]
      exact ih h c cp f hmem'

theorem eventsOf_append (A B : List Step) : eventsOf (A ++ B) = eventsOf A ++ eventsOf B := by
  simp [eventsOf, List.filterMap_append]

theorem getLast_events_concat (A : List Step) (e : NEvent) :
    (eventsOf (A ++ [Step.yieldEv e])).getLast? = some e := by
  rw [eventsOf_append]
  have h : eventsOf [Step.yieldEv e] = [e] := rfl
  rw [h, List.getLast?_concat]

/-- A concrete HTTP turn whose upstream error event is followed by a
further output item. -/
def c4Run : RunOut :=
  runHttp ⟨"inp", some "http://u", none, some "t", none, false⟩ "f" noSignal
    (FetchOutcome.resp true 200 ""
      (some ([SseEvent.errorEvent (some "boom"),
              SseEvent.outputItemDone none (some "x")], none)))
    histEmpty

/-- Counterexample to C4 as stated: an upstream error event that is not
the last decoded event is surfaced as a turn.failed that is not terminal —
a further item.completed is emitted after it (the stream still ends
without raising). -/
theorem http_failure_terminal_counterexample :
    eventsOf c4Run.trace =
      [NEvent.threadStarted "t", NEvent.turnStarted,
       NEvent.turnFailed "stream disconnected before completion: boom",
       NEvent.itemCompleted "item_0" "x"] ∧
    c4Run.ok = true ∧
    (eventsOf c4Run.trace).getLast? ≠
      some (NEvent.turnFailed "stream disconnected before completion: boom") := by decide

/-- C4 (amended): absent cancellation, every failure of the enumerated
kinds is surfaced as a turn.failed event within the stream and the stream
ends without raising an exception; the turn.failed is terminal for a
non-success status, a missing body, a decoded stream with neither
completion nor error event, and an error event that ends the decoded
stream — an error event followed by further upstream events may be
followed by further emitted events. -/
theorem http_failures_reported_in_stream :
    (∀ (args : CodexExecArgs) (freshId : String) (histories : Hist) (status : Nat)
        (bodyText : String) (body : Option (List SseEvent × Option String)),
      eventsOf (runHttp args freshId noSignal (FetchOutcome.resp false status bodyText body)
          histories).trace =
        [NEvent.threadStarted (args.threadId.getD ("thread_" ++ freshId)), NEvent.turnStarted,
         NEvent.turnFailed ("request failed with status " ++ toString status ++ ": " ++
           bodyText)] ∧
      (runHttp args freshId noSignal (FetchOutcome.resp false status bodyText body)
          histories).ok = true) ∧
    (∀ (args : CodexExecArgs) (freshId : String) (histories : Hist) (status : Nat)
        (bodyText : String),
      eventsOf (runHttp args freshId noSignal (FetchOutcome.resp true status bodyText none)
          histories).trace =
        [NEvent.threadStarted (args.threadId.getD ("thread_" ++ freshId)), NEvent.turnStarted,
         NEvent.turnFailed "stream disconnected before completion: missing response body"] ∧
      (runHttp args freshId noSignal (FetchOutcome.resp true status bodyText none)
          histories).ok = true) ∧
    (∀ (args : CodexExecArgs) (freshId : String) (histories : Hist) (status : Nat)
        (bodyText : String) (events : List SseEvent),
      events.any isRespCompletedEv = false → events.any isErrorEv = false →
      (eventsOf (runHttp args freshId noSignal (FetchOutcome.resp true status bodyText
          (some (events, none))) histories).trace).getLast? =
        some (NEvent.turnFailed
          "stream disconnected before completion: missing completion event")) ∧
    (∀ (args : CodexExecArgs) (freshId : String) (histories : Hist) (status : Nat)
        (bodyText : String) (events : List SseEvent) (m : Option String),
      (eventsOf (runHttp args freshId noSignal (FetchOutcome.resp true status bodyText
          (some (events ++ [SseEvent.errorEvent m], none))) histories).trace).getLast? =
        some (NEvent.turnFailed ("stream disconnected before completion: " ++
          m.getD "stream disconnected before completion"))) ∧
    (∀ (args : CodexExecArgs) (freshId : String) (histories : Hist) (ok : Bool)
        (status : Nat) (bodyText : String) (events : List SseEvent),
      (runHttp args freshId noSignal (FetchOutcome.resp ok status bodyText
          (some (events, none))) histories).ok = true) ∧
    (∀ (args : CodexExecArgs) (freshId : String) (histories : Hist) (status : Nat)
        (bodyText : String) (events : List SseEvent) (m : Option String),
      SseEvent.errorEvent m ∈ events →
      Step.yieldEv (NEvent.turnFailed ("stream disconnected before completion: " ++
          m.getD "stream disconnected before completion")) ∈
        (runHttp args freshId noSignal (FetchOutcome.resp true status bodyText
          (some (events, none))) histories).trace) := by
  have hns1 : ¬ (noSignal.present = true ∧ noSignal.abortedBefore = true) := by decide
  have hns2 : ¬ (noSignal.present = true ∧ noSignal.firesDuringWait = true) := by decide
  refine ⟨?_, ?_, ?_, ?_, ?_, ?_⟩
  · intro args freshId histories status bodyText body
    simp only [runHttp, if_neg hns1, if_neg hns2, if_true]
    exact ⟨by simp [eventsOf, List.filterMap_cons], rfl⟩
  · intro args freshId histories status bodyText
    simp only [runHttp, if_neg hns1, if_neg hns2, Bool.true_eq_false, if_false]
    exact ⟨by simp [eventsOf, List.filterMap_cons], rfl⟩
  · intro args freshId histories status bodyText events hnc hne
    simp only [runHttp, if_neg hns1, if_neg hns2, Bool.true_eq_false, if_false]
    have hexc : (httpLoop noSignal events
        ((histories (args.threadId.getD ("thread_" ++ freshId))) ++
          [⟨Role.user, args.input⟩]) 0 false false).exc = none :=
      httpLoop_exc_none noSignal rfl events _ 0 false false
    simp only [hexc]
    have hcompleted := httpLoop_completed_const noSignal events hnc
      ((histories (args.threadId.getD ("thread_" ++ freshId))) ++
        [⟨Role.user, args.input⟩]) 0 false false
    have hfailed := httpLoop_failed_const noSignal events hne
      ((histories (args.threadId.getD ("thread_" ++ freshId))) ++
        [⟨Role.user, args.input⟩]) 0 false false
    rw [if_pos ⟨hcompleted, hfailed⟩]
    exact getLast_events_concat _ _
  · intro args freshId histories status bodyText events m
    simp only [runHttp, if_neg hns1, if_neg hns2, Bool.true_eq_false, if_false,
      httpLoop_concat_error noSignal rfl, and_false, List.append_nil]
    rw [← List.append_assoc]
    exact getLast_events_concat _ _
  · intro args freshId histories ok status bodyText events
    by_cases hoke : ok = false
    · subst hoke
      simp only [runHttp, if_neg hns1, if_neg hns2, if_true]
      rfl
    · have hok' : ok = true := by
        cases ok
        · exact absurd rfl hoke
        · rfl
      subst hok'
      simp only [runHttp, if_neg hns1, if_neg hns2, Bool.true_eq_false, if_false]
      have hexc : (httpLoop noSignal events
          ((histories (args.threadId.getD ("thread_" ++ freshId))) ++
            [⟨Role.user, args.input⟩]) 0 false false).exc = none :=
        httpLoop_exc_none noSignal rfl events _ 0 false false
      simp only [hexc]
      rfl
  · intro args freshId histories status bodyText events m hmem
    simp only [runHttp, if_neg hns1, if_neg hns2, Bool.true_eq_false, if_false]
    have hexc : (httpLoop noSignal events
        ((histories (args.threadId.getD ("thread_" ++ freshId))) ++
          [⟨Role.user, args.input⟩]) 0 false false).exc = none :=
      httpLoop_exc_none noSignal rfl events _ 0 false false
    simp only [hexc]
    have hin := httpLoop_error_mem noSignal rfl events m
      ((histories (args.threadId.getD ("thread_" ++ freshId))) ++
        [⟨Role.user, args.input⟩]) 0 false false hmem
    simp [List.mem_append, hin]

/-- Witness for the amended C4: a stream with one item and no completion
marker ends in the missing-completion turn.failed, and a mid-stream error
event (followed by a further item) still has its turn.failed surfaced in
the trace. -/
theorem http_failures_reported_in_stream_witness :
    (eventsOf (runHttp ⟨"inp", some "http://u", none, some "t", none, false⟩ "f" noSignal
        (FetchOutcome.resp true 200 ""
          (some ([SseEvent.outputItemDone none (some "x")], none))) histEmpty).trace).getLast? =
      some (NEvent.turnFailed
        "stream disconnected before completion: missing completion event") ∧
    Step.yieldEv (NEvent.turnFailed "stream disconnected before completion: boom") ∈
      (runHttp ⟨"inp", some "http://u", none, some "t", none, false⟩ "f" noSignal
        (FetchOutcome.resp true 200 ""
          (some ([SseEvent.errorEvent (some "boom"),
                  SseEvent.outputItemDone none (some "x")], none))) histEmpty).trace :=
  ⟨http_failures_reported_in_stream.2.2.1 ⟨"inp", some "http://u", none, some "t", none, false⟩
    "f" histEmpty 200 "" [SseEvent.outputItemDone none (some "x")] (by decide) (by decide),
   http_failures_reported_in_stream.2.2.2.2.2
    ⟨"inp", some "http://u", none, some "t", none, false⟩
    "f" histEmpty 200 "" [SseEvent.errorEvent (some "boom"),
      SseEvent.outputItemDone none (some "x")] (some "boom") (by decide)⟩

/-- A concrete HTTP turn whose completion carries a negative upstream
input_tokens value. -/
def c8Run : RunOut :=
  runHttp ⟨"inp", some "http://u", none, some "t", none, false⟩ "f" noSignal
    (FetchOutcome.resp true 200 ""
      (some ([SseEvent.responseCompleted (some ⟨some (-3), none, none⟩)], none)))
    histEmpty

/-- Counterexample to C8 as stated: parseUsage does no clamping, so an
upstream completion carrying a negative input_tokens value yields a
turn.completed whose usage field is negative — the emitted usage is not
always made of non-negative integers. -/
theorem usage_nonnegative_counterexample :
    NEvent.turnCompleted ⟨-3, 0, 0⟩ ∈ eventsOf c8Run.trace ∧ ((-3 : Int) < 0) := by decide

/-- C8 (amended): the emitted usage defaults every field to 0 when absent
from the upstream data (including a wholly absent usage record); its
fields are non-negative whenever the upstream values present are
non-negative (the code passes values through without clamping); and an
upstream completion carrying usage input_tokens 42, cached 12 (inside
input_tokens_details) and output_tokens 5 is emitted as turn.completed
with usage (42, 12, 5), alongside the item produced by the turn. -/
theorem usage_parsing :
    (parseUsage none = ⟨0, 0, 0⟩) ∧
    (parseUsage (some ⟨none, none, none⟩) = ⟨0, 0, 0⟩) ∧
    (∀ u : Option RawUsage,
      (∀ n, u.bind RawUsage.input_tokens = some n → 0 ≤ n) →
      (∀ n, (u.bind RawUsage.input_tokens_details).bind RawTokenDetails.cached_tokens =
        some n → 0 ≤ n) →
      (∀ n, u.bind RawUsage.output_tokens = some n → 0 ≤ n) →
      0 ≤ (parseUsage u).input_tokens ∧ 0 ≤ (parseUsage u).cached_input_tokens ∧
        0 ≤ (parseUsage u).output_tokens) ∧
    (NEvent.turnCompleted ⟨42, 12, 5⟩ ∈ eventsOf (runHttp
        ⟨"Hello, world!", some "http://u", none, some "t", none, false⟩ "f" noSignal
        (FetchOutcome.resp true 200 ""
          (some ([SseEvent.outputItemDone none (some "Hi!"),
                  SseEvent.responseCompleted (some ⟨some 42, some ⟨some 12⟩, some 5⟩)],
            none))) histEmpty).trace ∧
      NEvent.itemCompleted "item_0" "Hi!" ∈ eventsOf (runHttp
        ⟨"Hello, world!", some "http://u", none, some "t", none, false⟩ "f" noSignal
        (FetchOutcome.resp true 200 ""
          (some ([SseEvent.outputItemDone none (some "Hi!"),
                  SseEvent.responseCompleted (some ⟨some 42, some ⟨some 12⟩, some 5⟩)],
            none))) histEmpty).trace) := by
  refine ⟨rfl, rfl, ?_, by decide⟩
  intro u hin hcache hout
  refine ⟨?_, ?_, ?_⟩
  · cases hv : u.bind RawUsage.input_tokens with
    | none => simp [parseUsage, hv]
    | some n =>
      have := hin n hv
      simp [parseUsage, hv]
      omega
  · cases hv : (u.bind RawUsage.input_tokens_details).bind RawTokenDetails.cached_tokens with
    | none => simp [parseUsage, hv]
    | some n =>
      have := hcache n hv
      simp [parseUsage, hv]
      omega
  · cases hv : u.bind RawUsage.output_tokens with
    | none => simp [parseUsage, hv]
    | some n =>
      have := hout n hv
      simp [parseUsage, hv]
      omega

/-- Witness for the amended C8: the non-negativity conjunct applied at
the concrete upstream usage record (42, cached 12, 5). -/
theorem usage_parsing_witness :
    0 ≤ (parseUsage (some ⟨some 42, some ⟨some 12⟩, some 5⟩)).input_tokens ∧
    0 ≤ (parseUsage (some ⟨some 42, some ⟨some 12⟩, some 5⟩)).cached_input_tokens ∧
    0 ≤ (parseUsage (some ⟨some 42, some ⟨some 12⟩, some 5⟩)).output_tokens :=
  usage_parsing.2.2.1 (some ⟨some 42, some ⟨some 12⟩, some 5⟩)
    (fun n h => by
      have : (42 : Int) = n := by simpa using h
      omega)
    (fun n h => by
      have : (12 : Int) = n := by simpa using h
      omega)
    (fun n h => by
      have : (5 : Int) = n := by simpa using h
      omega)

end CodexSpec
